import Mathlib

/-!
Shallow embedding of `alterations/alterations.go` (package `alterations` of
the amass repository): the frequency cache, the mutation state, and the six
name-generation operations, together with theorems checking the
specification's claims about them.

Modelling conventions:
* Go strings are modelled as `List Char` (`GoStr`).  All inputs of interest
  are ASCII, so byte indices and rune indices coincide.
* Go's `map[string]int` is modelled as an association list with unique keys;
  map iteration feeds a deduplicating string set, so iteration order is
  irrelevant to the set of results.
* A function that can panic (index out of range on a missing `parts[1]`)
  returns `Option …`, with `none` exactly when the Go code panics.
* The `stringset.Set` collaborator is modelled by `insertStr`/`insertMany`
  over a duplicate-free list, keeping first occurrences.
* Slice aliasing in `deletions` and `substitutions` is modelled faithfully:
  `append(rstr[:i], rstr[i+1:]...)` always writes into the shared backing
  array, and `temp := rstr` copies only the slice header, so both loops
  thread the mutated buffer from one position to the next.  In `additions`
  the `append(rstr, ldh[0])` grows past the slice's capacity (the rune slice
  produced by the `[]rune` conversion) and reallocates, so `additions` is
  modelled as plain insertion on an unshared copy.
-/

namespace Alterations

/-- Go strings, modelled as lists of characters. -/
abbrev GoStr := List Char

/-- The constant `ldhChars = "abcdefghijklmnopqrstuvwxyz0123456789-"` from the
source (26 letters, 10 digits and the hyphen: 37 characters). -/
def ldhChars : GoStr := "abcdefghijklmnopqrstuvwxyz0123456789-".data

/-- `strings.SplitN(s, sep, 2)`: splits at the first occurrence of `sep`,
returning `none` when `sep` does not occur (Go returns a single-element
slice in that case, so `parts[1]` panics). -/
def splitFirst (sep : Char) : GoStr → Option (GoStr × GoStr)
  | [] => none
  | c :: rest =>
    if c = sep then some ([], rest)
    else
      match splitFirst sep rest with
      | none => none
      | some (l, r) => some (c :: l, r)

/-- `strings.SplitN(s, sep, 2)[0]`: the part before the first `sep`, or the
whole string when `sep` does not occur. -/
def part0 (sep : Char) (s : GoStr) : GoStr :=
  match splitFirst sep s with
  | none => s
  | some (l, _) => l

/-- `strings.Split(s, sep)` for a one-character separator. -/
def splitAll (sep : Char) : GoStr → List GoStr
  | [] => [[]]
  | c :: rest =>
    if c = sep then [] :: splitAll sep rest
    else
      match splitAll sep rest with
      | [] => [[c]]
      | h :: t => (c :: h) :: t

/-- `strings.Join(parts, "-")`. -/
def joinHyphen : List GoStr → GoStr
  | [] => []
  | [p] => p
  | p :: q :: rest => p ++ '-' :: joinHyphen (q :: rest)

/-- `strings.Trim(s, "-")`: removes leading and trailing hyphens. -/
def trimHyphens (s : GoStr) : GoStr :=
  ((s.dropWhile (· = '-')).reverse.dropWhile (· = '-')).reverse

/-- `stringset.Set.Insert`: append unless already present (the concrete order
is irrelevant; only the underlying set of strings matters). -/
def insertStr (acc : List GoStr) (x : GoStr) : List GoStr :=
  if x ∈ acc then acc else acc ++ [x]

/-- `stringset.Set.InsertMany`. -/
def insertMany (acc : List GoStr) (xs : List GoStr) : List GoStr :=
  xs.foldl insertStr acc

/-- `Cache` from the source: `Counters map[string]int`, modelled as an
association list (the `sync.RWMutex` has no sequential content). -/
structure Cache where
  Counters : List (GoStr × Int)
deriving DecidableEq

/-- Lookup of a key in the counters map. -/
def lookupCount : List (GoStr × Int) → GoStr → Option Int
  | [], _ => none
  | (k, v) :: rest, w => if k = w then some v else lookupCount rest w

/-- `NewCache(seed)`: every seed word present at count 0 (duplicates
collapse, as for a Go map). -/
def NewCache (seed : List GoStr) : Cache :=
  ⟨seed.foldl
    (fun acc w =>
      match lookupCount acc w with
      | some _ => acc
      | none => acc ++ [(w, 0)])
    []⟩

/-- `Cache.Update(word)`: increment if present, else insert with count 1;
returns the new count together with the new cache. -/
def Cache.Update (c : Cache) (w : GoStr) : Int × Cache :=
  match lookupCount c.Counters w with
  | some n => (n + 1, ⟨c.Counters.map fun p => if p.1 = w then (p.1, p.2 + 1) else p⟩)
  | none => (1, ⟨c.Counters ++ [(w, 1)]⟩)

/-- `State` from the source. -/
structure State where
  MinForWordFlip : Int
  EditDistance : Nat
  Prefixes : Cache
  Suffixes : Cache
deriving DecidableEq

/-- `NewState(wordlist)` (the two int fields are zero-valued in Go). -/
def NewState (wordlist : List GoStr) : State :=
  ⟨0, 0, NewCache wordlist, NewCache wordlist⟩

/-- The iteration `for k, count := range cache.Counters { if count >= minc {
newNames.InsertMany(f(k)...) } }` shared by the word-driven generators. -/
def collectQual (minc : Int) (counters : List (GoStr × Int)) (f : GoStr → List GoStr)
    (acc : List GoStr) : List GoStr :=
  counters.foldl (fun a p => if minc ≤ p.2 then insertMany a (f p.1) else a) acc

/-- `FlipWords`: `none` models the index-out-of-range panic on `names[1]`
when the name has no dot. -/
def FlipWords (s : State) (name : GoStr) : Option (List GoStr × State) :=
  match splitFirst '.' name with
  | none => none
  | some (subdomain, domain) =>
    match splitAll '-' subdomain with
    | [] => some ([], s)
    | [_] => some ([], s)
    | pre :: r :: rest =>
      let pu := s.Prefixes.Update pre
      let names1 := collectQual s.MinForWordFlip pu.2.Counters
        (fun k => [k ++ '-' :: joinHyphen (r :: rest) ++ '.' :: domain]) []
      let post := (r :: rest).getLast (List.cons_ne_nil r rest)
      let su := s.Suffixes.Update post
      let names2 := collectQual s.MinForWordFlip su.2.Counters
        (fun k => [joinHyphen ((pre :: r :: rest).dropLast) ++ '-' :: k ++ '.' :: domain])
        names1
      some (names2, { s with Prefixes := pu.2, Suffixes := su.2 })

/-- `strconv.Itoa(i)` for a single decimal digit. -/
def digitChar (i : Nat) : Char := Char.ofNat (48 + i)

/-- `strings.IndexFunc(l, f)`: index of the first character satisfying `f`,
or `none` (Go returns -1) when there is none. -/
def indexFunc (f : Char → Bool) : GoStr → Option Nat
  | [] => none
  | c :: rest => if f c then some 0 else (indexFunc f rest).map (· + 1)

/-- `strings.LastIndexFunc(l, unicode.IsNumber)` (ASCII decimal digits). -/
def lastDigitIdx (l : GoStr) : Option Nat :=
  match indexFunc Char.isDigit l.reverse with
  | none => none
  | some j => some (l.length - 1 - j)

/-- `secondNumberFlip` from the source (its receiver is unused).  The
sentinel `minIndex = -1` means no position restriction. -/
def secondNumberFlip (name : GoStr) (minIndex : Int) : List GoStr :=
  match lastDigitIdx (part0 '.' name) with
  | none => [name]
  | some last =>
    if (last : Int) < minIndex then [name]
    else
      ((List.range 10).map fun i => name.take last ++ digitChar i :: name.drop (last + 1))
        ++ [name.take last ++ name.drop (last + 1)]

/-- `FlipNumbers` (total: it never reads `parts[1]`). -/
def FlipNumbers (s : State) (name : GoStr) : Option (List GoStr × State) :=
  match indexFunc Char.isDigit (part0 '.' name) with
  | none => some ([], s)
  | some first =>
    let flips := (List.range 10).foldl
      (fun a i =>
        insertMany a
          (secondNumberFlip (name.take first ++ digitChar i :: name.drop (first + 1))
            ((first : Int) + 1)))
      []
    some (insertMany flips (secondNumberFlip (name.take first ++ name.drop (first + 1)) (-1)), s)

/-- `addSuffix(parts, sfx)`: the two join styles, with the tail reattached. -/
def addSuffix (label tl : GoStr) (sfx : GoStr) : List GoStr :=
  [label ++ sfx ++ '.' :: tl, label ++ '-' :: (sfx ++ '.' :: tl)]

/-- `addPrefix(name, pfx)`: the two join styles (the whole remaining name,
tail included, follows the prefix word). -/
def addPrefix (name pfx : GoStr) : List GoStr :=
  [pfx ++ name, pfx ++ '-' :: name]

/-- `AppendNumbers`: `none` models the panic inside `addSuffix` when the
name has no dot but the trimmed label is nonempty. -/
def AppendNumbers (s : State) (name : GoStr) : Option (List GoStr × State) :=
  match splitFirst '.' name with
  | none => if trimHyphens name = [] then some ([], s) else none
  | some (label, tl) =>
    let t := trimHyphens label
    if t = [] then some ([], s)
    else
      some ((List.range 10).foldl (fun a i => insertMany a (addSuffix t tl [digitChar i])) [], s)

/-- `AddSuffixWord`: reads the suffix cache only; `none` models the panic
when the name has no dot, the trimmed label is nonempty and some cached word
qualifies (the loop body then reads the missing `parts[1]`). -/
def AddSuffixWord (s : State) (name : GoStr) : Option (List GoStr × State) :=
  match splitFirst '.' name with
  | none =>
    if trimHyphens name = [] then some ([], s)
    else if s.Suffixes.Counters.any (fun p => s.MinForWordFlip ≤ p.2) then none
    else some ([], s)
  | some (label, tl) =>
    let t := trimHyphens label
    if t = [] then some ([], s)
    else some (collectQual s.MinForWordFlip s.Suffixes.Counters (fun w => addSuffix t tl w) [], s)

/-- `AddPrefixWord`: note that the source trims hyphens from the whole name
(not from the label) and never splits on the dot, so it is total. -/
def AddPrefixWord (s : State) (name : GoStr) : Option (List GoStr × State) :=
  let n := trimHyphens name
  if n = [] then some ([], s)
  else some (collectQual s.MinForWordFlip s.Prefixes.Counters (fun w => addPrefix n w) [], s)

/-- The `additions` edit step: for every candidate, every position `0..len`
and every alphabet symbol, the string with that symbol inserted there (the
appended rune slice is reallocated, so candidates are independent here). -/
def additions (set : List GoStr) : List GoStr :=
  set.flatMap fun str =>
    (List.range (str.length + 1)).flatMap fun i =>
      ldhChars.map fun c => str.take i ++ c :: str.drop i

/-- Buffer with position `i` overwritten by `c` (in place, in the source). -/
def setAt (b : GoStr) (i : Nat) (c : Char) : GoStr :=
  b.take i ++ c :: b.drop (i + 1)

/-- The `deletions` edit step, aliasing modelled faithfully:
`append(rstr[:i], rstr[i+1:]...)` shifts the shared backing array left, so
after emitting the deletion at position `i` the buffer holds that deletion
followed by a copy of the (never overwritten) last character, and the next
position deletes from the corrupted buffer.  Empty results are dropped. -/
def deletionsOne (str : GoStr) : List GoStr :=
  ((List.range str.length).foldl
    (fun p i =>
      let e := p.2.take i ++ p.2.drop (i + 1)
      (if e = [] then p.1 else p.1 ++ [e], e ++ str.drop (str.length - 1)))
    ([], str)).1

/-- `deletions` over the whole candidate set. -/
def deletions (set : List GoStr) : List GoStr :=
  set.flatMap deletionsOne

/-- The `substitutions` edit step, aliasing modelled faithfully: `temp :=
rstr` copies only the slice header, so the inner alphabet loop leaves the
alphabet's last symbol written at position `i` of the shared buffer, and the
variants for later positions are built from that corrupted buffer. -/
def substitutionsOne (str : GoStr) : List GoStr :=
  ((List.range str.length).foldl
    (fun p i =>
      (p.1 ++ ldhChars.map (fun c => setAt p.2 i c), setAt p.2 i (ldhChars.getLastD 'a')))
    ([], str)).1

/-- `substitutions` over the whole candidate set. -/
def substitutions (set : List GoStr) : List GoStr :=
  set.flatMap substitutionsOne

/-- `FuzzyLabelSearches`: `EditDistance` rounds of additions, deletions and
substitutions accumulated over the growing candidate list, then trimming,
dropping empties and reattaching the tail.  `none` models the panic on
`parts[1]` when the name has no dot and some candidate survives trimming. -/
def FuzzyLabelSearches (s : State) (name : GoStr) : Option (List GoStr × State) :=
  let results := (List.range s.EditDistance).foldl
    (fun res _ => res ++ (additions res ++ (deletions res ++ substitutions res)))
    [part0 '.' name]
  match splitFirst '.' name with
  | some (_, tl) =>
    some (results.foldl
      (fun a alt => if trimHyphens alt = [] then a else insertStr a (trimHyphens alt ++ '.' :: tl))
      [], s)
  | none =>
    if results.all (fun alt => trimHyphens alt = []) then some ([], s) else none

/-- Concrete mutation state used by the closed example theorems: threshold 0,
edit distance 1, both caches seeded with the single word "x" (count 0). -/
def exState : State := ⟨0, 1, NewCache ["x".data], NewCache ["x".data]⟩

/-- The cache after `n` repeated `Update` calls for the same word. -/
def updateN (c : Cache) (w : GoStr) : Nat → Cache
  | 0 => c
  | n + 1 => ((updateN c w n).Update w).2

/-- The 11 names `FlipNumbers` produces for "host1.example.com". -/
def host1Results : List GoStr :=
  ["host0.example.com".data, "host1.example.com".data, "host2.example.com".data,
   "host3.example.com".data, "host4.example.com".data, "host5.example.com".data,
   "host6.example.com".data, "host7.example.com".data, "host8.example.com".data,
   "host9.example.com".data, "host.example.com".data]

/-! Lemmas about splitting, joining and the string-set folds. -/

theorem splitFirst_of_not_mem (sep : Char) (a : GoStr) (h : sep ∉ a) :
    splitFirst sep a = none := by
  induction a with
  | nil => rfl
  | cons c rest ih =>
    simp only [List.mem_cons, not_or] at h
    simp [splitFirst, Ne.symm h.1, ih h.2]

theorem splitFirst_append (sep : Char) (a b : GoStr) (h : sep ∉ a) :
    splitFirst sep (a ++ sep :: b) = some (a, b) := by
  induction a with
  | nil => simp [splitFirst]
  | cons c rest ih =>
    simp only [List.mem_cons, not_or] at h
    simp [splitFirst, Ne.symm h.1, ih h.2]

theorem part0_append (a b : GoStr) (h : '.' ∉ a) :
    part0 '.' (a ++ '.' :: b) = a := by
  simp [part0, splitFirst_append '.' a b h]

theorem part0_of_not_mem (a : GoStr) (h : '.' ∉ a) : part0 '.' a = a := by
  simp [part0, splitFirst_of_not_mem '.' a h]

theorem splitAll_ne_nil (sep : Char) (l : GoStr) : splitAll sep l ≠ [] := by
  cases l with
  | nil => simp [splitAll]
  | cons c rest =>
    unfold splitAll
    split
    · simp
    · cases h : splitAll sep rest <;> simp

theorem splitAll_of_not_mem (sep : Char) (l : GoStr) (h : sep ∉ l) :
    splitAll sep l = [l] := by
  induction l with
  | nil => rfl
  | cons c rest ih =>
    simp only [List.mem_cons, not_or] at h
    unfold splitAll
    rw [if_neg (fun e => h.1 e.symm), ih h.2]

theorem splitAll_of_mem (sep : Char) (l : GoStr) (h : sep ∈ l) :
    ∃ a b t, splitAll sep l = a :: b :: t := by
  induction l with
  | nil => cases h
  | cons c rest ih =>
    unfold splitAll
    by_cases hc : c = sep
    · rw [if_pos hc]
      cases hr : splitAll sep rest with
      | nil => exact absurd hr (splitAll_ne_nil sep rest)
      | cons x t => exact ⟨[], x, t, rfl⟩
    · have hm : sep ∈ rest := by
        rcases List.mem_cons.mp h with e | e
        · exact absurd e.symm hc
        · exact e
      obtain ⟨a, b, t, ht⟩ := ih hm
      rw [if_neg hc, ht]
      exact ⟨c :: a, b, t, rfl⟩

theorem joinHyphen_cons_cons (p q : GoStr) (rest : List GoStr) :
    joinHyphen (p :: q :: rest) = p ++ '-' :: joinHyphen (q :: rest) := rfl

theorem joinHyphen_splitAll (l : GoStr) : joinHyphen (splitAll '-' l) = l := by
  induction l with
  | nil => rfl
  | cons c rest ih =>
    unfold splitAll
    by_cases hc : c = '-'
    · rw [if_pos hc]
      cases hr : splitAll '-' rest with
      | nil => exact absurd hr (splitAll_ne_nil '-' rest)
      | cons x t =>
        rw [hr] at ih
        rw [joinHyphen_cons_cons, List.nil_append, hc, ih]
    · rw [if_neg hc]
      cases hr : splitAll '-' rest with
      | nil => exact absurd hr (splitAll_ne_nil '-' rest)
      | cons x t =>
        rw [hr] at ih
        cases t with
        | nil => simpa [joinHyphen] using congrArg (c :: ·) ih
        | cons y t' =>
          rw [joinHyphen_cons_cons] at ih ⊢
          rw [List.cons_append, ih]

theorem mem_insertStr {acc : List GoStr} {x y : GoStr} :
    y ∈ insertStr acc x ↔ y ∈ acc ∨ y = x := by
  unfold insertStr
  split
  · next h =>
    constructor
    · exact Or.inl
    · rintro (hy | rfl)
      · exact hy
      · exact h
  · simp

theorem mem_insertMany {acc xs : List GoStr} {y : GoStr} :
    y ∈ insertMany acc xs ↔ y ∈ acc ∨ y ∈ xs := by
  induction xs generalizing acc with
  | nil => simp [insertMany]
  | cons x rest ih =>
    show y ∈ insertMany (insertStr acc x) rest ↔ _
    rw [ih, mem_insertStr]
    simp only [List.mem_cons]
    tauto

theorem mem_collectQual {minc : Int} {counters : List (GoStr × Int)}
    {f : GoStr → List GoStr} {acc : List GoStr} {x : GoStr} :
    x ∈ collectQual minc counters f acc ↔
      x ∈ acc ∨ ∃ p ∈ counters, minc ≤ p.2 ∧ x ∈ f p.1 := by
  induction counters generalizing acc with
  | nil => simp [collectQual]
  | cons p rest ih =>
    show x ∈ collectQual minc rest f (if minc ≤ p.2 then insertMany acc (f p.1) else acc) ↔ _
    rw [ih]
    by_cases hp : minc ≤ p.2
    · rw [if_pos hp, mem_insertMany]
      constructor
      · rintro ((h | h) | ⟨q, hq, h2, h3⟩)
        · exact Or.inl h
        · exact Or.inr ⟨p, List.mem_cons_self p rest, hp, h⟩
        · exact Or.inr ⟨q, List.mem_cons_of_mem p hq, h2, h3⟩
      · rintro (h | ⟨q, hq, h2, h3⟩)
        · exact Or.inl (Or.inl h)
        · rcases List.mem_cons.mp hq with rfl | hq'
          · exact Or.inl (Or.inr h3)
          · exact Or.inr ⟨q, hq', h2, h3⟩
    · rw [if_neg hp]
      constructor
      · rintro (h | ⟨q, hq, h2, h3⟩)
        · exact Or.inl h
        · exact Or.inr ⟨q, List.mem_cons_of_mem p hq, h2, h3⟩
      · rintro (h | ⟨q, hq, h2, h3⟩)
        · exact Or.inl h
        · rcases List.mem_cons.mp hq with rfl | hq'
          · exact absurd h2 hp
          · exact Or.inr ⟨q, hq', h2, h3⟩

theorem mem_foldl_insertMany {α : Type} (g : α → List GoStr) (l : List α)
    (acc : List GoStr) (x : GoStr) :
    x ∈ l.foldl (fun a i => insertMany a (g i)) acc ↔ x ∈ acc ∨ ∃ i ∈ l, x ∈ g i := by
  induction l generalizing acc with
  | nil => simp
  | cons i rest ih =>
    show x ∈ rest.foldl _ (insertMany acc (g i)) ↔ _
    rw [ih, mem_insertMany]
    constructor
    · rintro ((h | h) | ⟨j, hj, h2⟩)
      · exact Or.inl h
      · exact Or.inr ⟨i, List.mem_cons_self i rest, h⟩
      · exact Or.inr ⟨j, List.mem_cons_of_mem i hj, h2⟩
    · rintro (h | ⟨j, hj, h2⟩)
      · exact Or.inl (Or.inl h)
      · rcases List.mem_cons.mp hj with rfl | hj'
        · exact Or.inl (Or.inr h2)
        · exact Or.inr ⟨j, hj', h2⟩

/-! Lemmas about the frequency cache. -/

theorem lookupCount_cons (k : GoStr) (v : Int) (rest : List (GoStr × Int)) (w : GoStr) :
    lookupCount ((k, v) :: rest) w = if k = w then some v else lookupCount rest w := rfl

theorem lookupCount_some_mem {l : List (GoStr × Int)} {w : GoStr} {n : Int}
    (h : lookupCount l w = some n) : (w, n) ∈ l := by
  induction l with
  | nil => cases h
  | cons p rest ih =>
    obtain ⟨k, v⟩ := p
    rw [lookupCount_cons] at h
    split at h
    · next hk => cases h; exact hk ▸ List.mem_cons_self _ _
    · exact List.mem_cons_of_mem _ (ih h)

theorem lookupCount_append_left {l₁ l₂ : List (GoStr × Int)} {w : GoStr} {n : Int}
    (h : lookupCount l₁ w = some n) : lookupCount (l₁ ++ l₂) w = some n := by
  induction l₁ with
  | nil => cases h
  | cons p rest ih =>
    obtain ⟨k, v⟩ := p
    rw [lookupCount_cons] at h
    rw [List.cons_append, lookupCount_cons]
    split at h <;> split <;> first
      | exact h
      | exact ih h
      | (next h1 _ h2 => exact absurd h1 h2)
      | (next h1 h2 => exact absurd h2 h1)

theorem lookupCount_append_right {l₁ l₂ : List (GoStr × Int)} {w : GoStr}
    (h : lookupCount l₁ w = none) : lookupCount (l₁ ++ l₂) w = lookupCount l₂ w := by
  induction l₁ with
  | nil => rfl
  | cons p rest ih =>
    obtain ⟨k, v⟩ := p
    rw [lookupCount_cons] at h
    rw [List.cons_append, lookupCount_cons]
    split at h
    · cases h
    · next hk => rw [if_neg hk]; exact ih h

theorem lookupCount_map_incr (l : List (GoStr × Int)) (w v : GoStr) :
    lookupCount (l.map fun p => if p.1 = w then (p.1, p.2 + 1) else p) v =
      (lookupCount l v).map (fun x => if v = w then x + 1 else x) := by
  induction l with
  | nil => rfl
  | cons p rest ih =>
    obtain ⟨k, c⟩ := p
    simp only [List.map_cons]
    by_cases hkw : k = w
    · rw [if_pos hkw, lookupCount_cons, lookupCount_cons]
      by_cases hkv : k = v
      · subst hkv
        rw [if_pos rfl, if_pos rfl]
        simp [hkw]
      · rw [if_neg hkv, if_neg hkv, ih]
    · rw [if_neg hkw, lookupCount_cons, lookupCount_cons]
      by_cases hkv : k = v
      · subst hkv
        rw [if_pos rfl, if_pos rfl]
        simp [hkw]
      · rw [if_neg hkv, if_neg hkv, ih]

theorem Update_fst_of_none {c : Cache} {w : GoStr}
    (h : lookupCount c.Counters w = none) : (c.Update w).1 = 1 := by
  unfold Cache.Update; rw [h]

theorem Update_fst_of_some {c : Cache} {w : GoStr} {n : Int}
    (h : lookupCount c.Counters w = some n) : (c.Update w).1 = n + 1 := by
  unfold Cache.Update; rw [h]

theorem lookup_Update_self (c : Cache) (w : GoStr) :
    lookupCount (c.Update w).2.Counters w = some ((c.Update w).1) := by
  unfold Cache.Update
  cases h : lookupCount c.Counters w with
  | none =>
    show lookupCount (c.Counters ++ [(w, 1)]) w = some 1
    rw [lookupCount_append_right h]
    simp [lookupCount]
  | some n =>
    show lookupCount (c.Counters.map _) w = some (n + 1)
    rw [lookupCount_map_incr, h]
    simp

theorem NewCache_values (seed : List GoStr) :
    ∀ p ∈ (NewCache seed).Counters, p.2 = 0 := by
  suffices h : ∀ (acc : List (GoStr × Int)), (∀ p ∈ acc, p.2 = 0) →
      ∀ p ∈ seed.foldl (fun acc w =>
        match lookupCount acc w with
        | some _ => acc
        | none => acc ++ [(w, 0)]) acc, p.2 = 0 by
    exact h [] (by simp)
  induction seed with
  | nil => intro acc hacc; simpa using hacc
  | cons w rest ih =>
    intro acc hacc
    rw [List.foldl_cons]
    apply ih
    cases hl : lookupCount acc w with
    | some n => exact hacc
    | none =>
      intro p hp
      rcases List.mem_append.mp hp with hp | hp
      · exact hacc p hp
      · simp only [List.mem_singleton] at hp
        rw [hp]

theorem lookup_NewCache (seed : List GoStr) (w : GoStr) :
    lookupCount (NewCache seed).Counters w = none ∨
      lookupCount (NewCache seed).Counters w = some 0 := by
  cases h : lookupCount (NewCache seed).Counters w with
  | none => exact Or.inl rfl
  | some n =>
    right
    have h0 : n = 0 := NewCache_values seed (w, n) (lookupCount_some_mem h)
    rw [h0]

theorem Update_mem_ge_one (c : Cache) (w : GoStr)
    (hwf : ∀ p ∈ c.Counters, 0 ≤ p.2) :
    ∃ v, (w, v) ∈ (c.Update w).2.Counters ∧ 1 ≤ v := by
  unfold Cache.Update
  cases h : lookupCount c.Counters w with
  | none =>
    refine ⟨1, ?_, le_refl 1⟩
    show (w, 1) ∈ c.Counters ++ [(w, 1)]
    simp
  | some n =>
    refine ⟨n + 1, ?_, ?_⟩
    · show (w, n + 1) ∈ c.Counters.map _
      have hm := lookupCount_some_mem h
      have hmem := List.mem_map_of_mem
        (fun p : GoStr × Int => if p.1 = w then (p.1, p.2 + 1) else p) hm
      simpa using hmem
    · have := hwf (w, n) (lookupCount_some_mem h)
      omega

theorem Update_seq (seed : List GoStr) (w : GoStr) :
    ∀ n : Nat, ((updateN (NewCache seed) w n).Update w).1 = (n : Int) + 1 := by
  intro n
  induction n with
  | zero =>
    rcases lookup_NewCache seed w with h | h
    · show ((NewCache seed).Update w).1 = (0 : Int) + 1
      rw [Update_fst_of_none h]
      norm_num
    · show ((NewCache seed).Update w).1 = (0 : Int) + 1
      rw [Update_fst_of_some h]
  | succ n ih =>
    have hl : lookupCount (updateN (NewCache seed) w (n + 1)).Counters w
        = some ((n : Int) + 1) := by
      show lookupCount ((updateN (NewCache seed) w n).Update w).2.Counters w = _
      rw [lookup_Update_self, ih]
    rw [Update_fst_of_some hl]
    push_cast
    ring

/-! The claim theorems. -/

/-- C1 (evaluation at the failing input): the substitution step does not
treat candidate strings immutably, and the alphabet has 37 symbols, not 38.
The inner loop writes through the shared slice header, so after the
position-0 pass over "ab" the buffer is "-b": the position-1 variants are
"-a", "-b", … and the claimed variant "aa" (position 1 of "ab" replaced by
the symbol a) is never emitted. -/
theorem substitutions_aliasing :
    ldhChars.length = 37 ∧
    "-a".data ∈ substitutions ["ab".data] ∧
    "aa".data ∉ substitutions ["ab".data] ∧
    "ab".data ∈ substitutions ["ab".data] := by decide

/-- C2 (evaluation at the failing input): no generator reports a recoverable
InvalidInputError on a name without a dot. FlipWords, AppendNumbers,
AddSuffixWord and FuzzyLabelSearches hit the out-of-range read of the
missing `parts[1]` (modelled as `none`), while FlipNumbers and
AddPrefixWord return normally as if the input were valid. -/
theorem no_separator_behaviour :
    FlipWords exState "host".data = none ∧
    AppendNumbers exState "host".data = none ∧
    AddSuffixWord exState "host".data = none ∧
    FuzzyLabelSearches exState "host".data = none ∧
    FlipNumbers exState "host1".data =
      some (["host0".data, "host1".data, "host2".data, "host3".data, "host4".data,
        "host5".data, "host6".data, "host7".data, "host8".data, "host9".data,
        "host".data], exState) ∧
    AddPrefixWord exState "host".data = some (["xhost".data, "x-host".data], exState) := by
  decide

set_option maxRecDepth 40000 in
/-- C3 (evaluation at the failing input): the deletion step also reuses the
shared backing buffer: after emitting the position-0 deletion of "ab" the
buffer is "bb", so the position-1 deletion emits "b" rather than "a" and
`deletions ["ab"] = ["b", "b"]`.  The claim's concrete consequences for
FuzzyLabelSearches nevertheless hold (at edit distance 1, with
"a.example.com" arriving only as the trim of the corrupted substitution
variant "-a"). -/
theorem deletions_aliasing :
    deletions ["ab".data] = ["b".data, "b".data] ∧
    "a".data ∉ deletions ["ab".data] ∧
    ∃ r, FuzzyLabelSearches exState "ab.example.com".data = some r ∧
      r.1.length ≤ 192 ∧ "a.example.com".data ∈ r.1 ∧ "b.example.com".data ∈ r.1 ∧
      "ab.example.com".data ∈ r.1 :=
  ⟨by decide, by decide, _, rfl, by decide, by decide, by decide, by decide⟩

/-- C4 counterexample: AddPrefixWord trims hyphens from the whole name, not
from the label, so "--.example.com" becomes ".example.com" (nonempty) and
with a qualifying cached word the result set is not empty. -/
theorem AddPrefixWord_hyphen_label :
    AddPrefixWord exState "--.example.com".data =
      some (["x.example.com".data, "x-.example.com".data], exState) ∧
    (["x.example.com".data, "x-.example.com".data] : List GoStr) ≠ [] := by decide

/-- C4 amended: for every state, AddSuffixWord("--.example.com") returns the
empty set (the label trims to empty), while AddPrefixWord trims the whole
name to ".example.com" and returns the empty set iff no cached word reaches
the MinForWordFlip threshold. -/
theorem trim_to_empty_amended (s : State) :
    AddSuffixWord s "--.example.com".data = some ([], s) ∧
    ∃ l, AddPrefixWord s "--.example.com".data = some (l, s) ∧
      (l = [] ↔ ∀ p ∈ s.Prefixes.Counters, ¬ s.MinForWordFlip ≤ p.2) := by
  refine ⟨rfl, collectQual s.MinForWordFlip s.Prefixes.Counters
    (fun w => addPrefix ".example.com".data w) [], rfl, ?_, ?_⟩
  · intro hl p hp hq
    have hx : (p.1 ++ ".example.com".data) ∈
        collectQual s.MinForWordFlip s.Prefixes.Counters
          (fun w => addPrefix ".example.com".data w) [] :=
      mem_collectQual.mpr (Or.inr ⟨p, hp, hq, List.mem_cons_self _ _⟩)
    rw [hl] at hx
    cases hx
  · intro hnone
    rw [List.eq_nil_iff_forall_not_mem]
    intro x hx
    rcases mem_collectQual.mp hx with h | ⟨p, hp, hq, _⟩
    · cases h
    · exact hnone p hp hq

/-- C5: FlipNumbers("host1.example.com") returns exactly 11 unique names:
the digit substitutions host0…host9 and the digit removal host, each with
".example.com" appended; the caches play no role. -/
theorem FlipNumbers_host1 :
    (∀ s : State, FlipNumbers s "host1.example.com".data = some (host1Results, s)) ∧
    host1Results.Nodup ∧ host1Results.length = 11 :=
  ⟨fun _ => rfl, by decide, rfl⟩

/-- C8: Update inserts with count 1 and returns 1 when the word is absent,
otherwise increments and returns the new count; on a fresh cache repeated
updates return the strictly increasing sequence 1, 2, 3, …; and an update
never decreases any word's count nor removes a word. -/
theorem Cache_Update_counts :
    (∀ (c : Cache) (w : GoStr), lookupCount c.Counters w = none →
      (c.Update w).1 = 1 ∧ lookupCount (c.Update w).2.Counters w = some 1) ∧
    (∀ (c : Cache) (w : GoStr) (n : Int), lookupCount c.Counters w = some n →
      (c.Update w).1 = n + 1) ∧
    (∀ (seed : List GoStr) (w : GoStr) (n : Nat),
      ((updateN (NewCache seed) w n).Update w).1 = (n : Int) + 1) ∧
    (∀ (c : Cache) (w v : GoStr) (n : Int), lookupCount c.Counters v = some n →
      ∃ m : Int, lookupCount (c.Update w).2.Counters v = some m ∧ n ≤ m) := by
  refine ⟨?_, ?_, ?_, ?_⟩
  · intro c w h
    refine ⟨Update_fst_of_none h, ?_⟩
    rw [lookup_Update_self, Update_fst_of_none h]
  · intro c w n h
    exact Update_fst_of_some h
  · exact Update_seq
  · intro c w v n h
    unfold Cache.Update
    cases hw : lookupCount c.Counters w with
    | none =>
      exact ⟨n, lookupCount_append_left h, le_refl n⟩
    | some k =>
      refine ⟨if v = w then n + 1 else n, ?_, ?_⟩
      · show lookupCount (c.Counters.map _) v = _
        rw [lookupCount_map_incr, h]
        rfl
      · split <;> omega

/-- Witness for Cache_Update_counts: the increment branch evaluated at a
concrete one-entry cache. -/
theorem Cache_Update_counts_witness :
    lookupCount (Cache.mk [("a".data, 3)]).Counters "a".data = some 3 ∧
      ((Cache.mk [("a".data, 3)]).Update "a".data).1 = 3 + 1 :=
  ⟨by decide, Cache_Update_counts.2.1 ⟨[("a".data, 3)]⟩ "a".data 3 (by decide)⟩

/-- C9: AddSuffixWord and AddPrefixWord never modify either cache: whenever
they return, the returned state is the input state, so both the Prefixes
and Suffixes counter maps are unchanged. -/
theorem AddWord_read_only (s : State) (name : GoStr) :
    (∀ r, AddSuffixWord s name = some r → r.2 = s) ∧
    (∀ r, AddPrefixWord s name = some r → r.2 = s) := by
  constructor
  · intro r h
    unfold AddSuffixWord at h
    split at h
    · split at h
      · injection h with h2
        rw [← h2]
      · split at h
        · cases h
        · injection h with h2
          rw [← h2]
    · dsimp only at h
      split at h
      · injection h with h2
        rw [← h2]
      · injection h with h2
        rw [← h2]
  · intro r h
    unfold AddPrefixWord at h
    dsimp only at h
    split at h
    · injection h with h2
      rw [← h2]
    · injection h with h2
      rw [← h2]

/-- C10: on a well-formed name whose label contains no hyphen, FlipWords
returns the empty set and the returned state is the input state: no Update
touches either cache on this early-return path. -/
theorem FlipWords_no_hyphen (s : State) (sub dom : GoStr)
    (hdot : '.' ∉ sub) (hhy : '-' ∉ sub) :
    FlipWords s (sub ++ '.' :: dom) = some ([], s) := by
  unfold FlipWords
  rw [splitFirst_append '.' sub dom hdot]
  dsimp only
  rw [splitAll_of_not_mem '-' sub hhy]

/-- Witness for FlipWords_no_hyphen at "host.example.com". -/
theorem FlipWords_no_hyphen_witness :
    FlipWords exState ("host".data ++ '.' :: "example.com".data) = some ([], exState) :=
  FlipWords_no_hyphen exState "host".data "example.com".data (by decide) (by decide)

/-- C6: with MinForWordFlip ≤ 1 and nonnegative counts in the Prefixes cache
(the data-model invariant on counters), FlipWords on a well-formed name
whose label contains a hyphen always reproduces the input name itself: the
first hyphen part is written into the cache (reaching count ≥ 1) before the
threshold filter runs. -/
theorem FlipWords_self_inclusion (s : State) (sub dom : GoStr)
    (hwf : ∀ p ∈ s.Prefixes.Counters, 0 ≤ p.2)
    (hmin : s.MinForWordFlip ≤ 1)
    (hdot : '.' ∉ sub) (hhy : '-' ∈ sub) :
    ∃ r, FlipWords s (sub ++ '.' :: dom) = some r ∧ (sub ++ '.' :: dom) ∈ r.1 := by
  obtain ⟨a, b, t, hsplit⟩ := splitAll_of_mem '-' sub hhy
  have hjoin : a ++ '-' :: joinHyphen (b :: t) = sub := by
    have hj := joinHyphen_splitAll sub
    rw [hsplit, joinHyphen_cons_cons] at hj
    exact hj
  unfold FlipWords
  rw [splitFirst_append '.' sub dom hdot]
  dsimp only
  rw [hsplit]
  refine ⟨_, rfl, ?_⟩
  obtain ⟨v, hv, h1⟩ := Update_mem_ge_one s.Prefixes a hwf
  dsimp only
  apply mem_collectQual.mpr
  left
  apply mem_collectQual.mpr
  right
  refine ⟨(a, v), hv, le_trans hmin h1, ?_⟩
  simp only [List.mem_singleton]
  rw [← hjoin]

/-- Witness for FlipWords_self_inclusion at "abc-def.example.com". -/
theorem FlipWords_self_inclusion_witness :
    ∃ r, FlipWords exState ("abc-def".data ++ '.' :: "example.com".data) = some r ∧
      ("abc-def".data ++ '.' :: "example.com".data) ∈ r.1 :=
  FlipWords_self_inclusion exState "abc-def".data "example.com".data
    (by decide) (by decide) (by decide) (by decide)

/-! Helper lemmas for tail preservation. -/

theorem suffix_append_left {l l₂ : GoStr} (l₁ : GoStr) (h : l <:+ l₂) : l <:+ l₁ ++ l₂ :=
  h.trans (List.suffix_append l₁ l₂)

theorem suffix_mem_addSuffix {lab tl sfx x : GoStr} (h : x ∈ addSuffix lab tl sfx) :
    ('.' :: tl) <:+ x := by
  rcases List.mem_cons.mp h with rfl | h
  · exact ⟨lab ++ sfx, by simp⟩
  · rcases List.mem_cons.mp h with rfl | h
    · exact ⟨lab ++ '-' :: sfx, by simp⟩
    · cases h

theorem indexFunc_lt_length {f : Char → Bool} {l : GoStr} {i : Nat}
    (h : indexFunc f l = some i) : i < l.length := by
  induction l generalizing i with
  | nil => cases h
  | cons c rest ih =>
    unfold indexFunc at h
    split at h
    · cases h
      simp
    · cases hr : indexFunc f rest with
      | none => rw [hr] at h; cases h
      | some j =>
        rw [hr] at h
        simp only [Option.map_some'] at h
        cases h
        have := ih hr
        simp only [List.length_cons]
        omega

theorem lastDigitIdx_lt_length {l : GoStr} {i : Nat} (h : lastDigitIdx l = some i) :
    i < l.length := by
  unfold lastDigitIdx at h
  cases hj : indexFunc Char.isDigit l.reverse with
  | none => rw [hj] at h; cases h
  | some j =>
    rw [hj] at h
    injection h with h2
    have hjl : j < l.reverse.length := indexFunc_lt_length hj
    rw [List.length_reverse] at hjl
    omega

theorem digitChar_ne_dot {i : Nat} (h : i < 10) : digitChar i ≠ '.' := by
  interval_cases i <;> decide

theorem dropWhile_eq_self_of_head (p : Char → Bool) (l : GoStr)
    (h : ∀ c, l.head? = some c → ¬ p c = true) : l.dropWhile p = l := by
  cases l with
  | nil => rfl
  | cons c rest =>
    rw [List.dropWhile_cons, if_neg (h c rfl)]

theorem trimHyphens_append_dot (lbl tl : GoStr) (htl : tl ≠ [])
    (hlast : tl.getLast? ≠ some '-') :
    trimHyphens (lbl ++ '.' :: tl) = lbl.dropWhile (· = '-') ++ '.' :: tl := by
  have h1 : (lbl ++ '.' :: tl).dropWhile (· = '-') =
      lbl.dropWhile (· = '-') ++ '.' :: tl := by
    rw [List.dropWhile_append]
    split
    · next he =>
      rw [List.isEmpty_iff] at he
      rw [he, List.nil_append, List.dropWhile_cons, if_neg (by decide)]
    · rfl
  unfold trimHyphens
  rw [h1]
  have hgl : (lbl.dropWhile (· = '-') ++ '.' :: tl).getLast? = tl.getLast? := by
    rw [List.getLast?_append_of_ne_nil _ (List.cons_ne_nil '.' tl)]
    show (['.'] ++ tl).getLast? = _
    rw [List.getLast?_append_of_ne_nil _ htl]
  rw [dropWhile_eq_self_of_head _ _ ?hh, List.reverse_reverse]
  case hh =>
    intro c hc
    rw [List.head?_reverse, hgl] at hc
    have hne : c ≠ '-' := fun e => hlast (e ▸ hc)
    simp [hne]

theorem mem_fuzzFold (tl : GoStr) (l acc : List GoStr) (x : GoStr) :
    x ∈ l.foldl (fun a alt => if trimHyphens alt = [] then a
        else insertStr a (trimHyphens alt ++ '.' :: tl)) acc ↔
      x ∈ acc ∨ ∃ alt ∈ l, trimHyphens alt ≠ [] ∧ x = trimHyphens alt ++ '.' :: tl := by
  induction l generalizing acc with
  | nil => simp
  | cons e rest ih =>
    show x ∈ rest.foldl _ (if trimHyphens e = [] then acc
        else insertStr acc (trimHyphens e ++ '.' :: tl)) ↔ _
    rw [ih]
    by_cases he : trimHyphens e = []
    · rw [if_pos he]
      constructor
      · rintro (h | ⟨alt, ha, h2, h3⟩)
        · exact Or.inl h
        · exact Or.inr ⟨alt, List.mem_cons_of_mem e ha, h2, h3⟩
      · rintro (h | ⟨alt, ha, h2, h3⟩)
        · exact Or.inl h
        · rcases List.mem_cons.mp ha with rfl | ha'
          · exact absurd he h2
          · exact Or.inr ⟨alt, ha', h2, h3⟩
    · rw [if_neg he, mem_insertStr]
      constructor
      · rintro ((h | h) | ⟨alt, ha, h2, h3⟩)
        · exact Or.inl h
        · exact Or.inr ⟨e, List.mem_cons_self e rest, he, h⟩
        · exact Or.inr ⟨alt, List.mem_cons_of_mem e ha, h2, h3⟩
      · rintro (h | ⟨alt, ha, h2, h3⟩)
        · exact Or.inl (Or.inl h)
        · rcases List.mem_cons.mp ha with rfl | ha'
          · exact Or.inl (Or.inr h3)
          · exact Or.inr ⟨alt, ha', h2, h3⟩

theorem secondNumberFlip_tail (lbl tl : GoStr) (hdot : '.' ∉ lbl) (m : Int) :
    ∀ x ∈ secondNumberFlip (lbl ++ '.' :: tl) m, ('.' :: tl) <:+ x := by
  intro x hx
  unfold secondNumberFlip at hx
  rw [part0_append lbl tl hdot] at hx
  cases hld : lastDigitIdx lbl with
  | none =>
    rw [hld] at hx
    simp only [List.mem_singleton] at hx
    rw [hx]
    exact List.suffix_append lbl ('.' :: tl)
  | some last =>
    rw [hld] at hx
    dsimp only at hx
    have hlt : last < lbl.length := lastDigitIdx_lt_length hld
    have hdrop : (lbl ++ '.' :: tl).drop (last + 1) = lbl.drop (last + 1) ++ '.' :: tl :=
      List.drop_append_of_le_length (by omega)
    split at hx
    · simp only [List.mem_singleton] at hx
      rw [hx]
      exact List.suffix_append lbl ('.' :: tl)
    · rcases List.mem_append.mp hx with hx | hx
      · rcases List.mem_map.mp hx with ⟨i, _, rfl⟩
        rw [hdrop]
        exact ⟨(lbl ++ '.' :: tl).take last ++ digitChar i :: lbl.drop (last + 1), by simp⟩
      · simp only [List.mem_singleton] at hx
        rw [hx, hdrop]
        exact ⟨(lbl ++ '.' :: tl).take last ++ lbl.drop (last + 1), by simp⟩

theorem FlipWords_tail (s : State) (lbl tl : GoStr) (hdot : '.' ∉ lbl) :
    ∀ r, FlipWords s (lbl ++ '.' :: tl) = some r → ∀ x ∈ r.1, ('.' :: tl) <:+ x := by
  intro r h x hx
  unfold FlipWords at h
  rw [splitFirst_append '.' lbl tl hdot] at h
  dsimp only at h
  rcases hsp : splitAll '-' lbl with _ | ⟨p1, _ | ⟨p2, rest⟩⟩
  · rw [hsp] at h
    injection h with h2
    rw [← h2] at hx
    cases hx
  · rw [hsp] at h
    injection h with h2
    rw [← h2] at hx
    cases hx
  · rw [hsp] at h
    dsimp only at h
    injection h with h2
    rw [← h2] at hx
    dsimp only at hx
    rcases mem_collectQual.mp hx with hx | ⟨p, _, _, hx⟩
    · rcases mem_collectQual.mp hx with hx | ⟨q, _, _, hx⟩
      · cases hx
      · simp only [List.mem_singleton] at hx
        subst hx
        exact ⟨q.1 ++ '-' :: joinHyphen (p2 :: rest), by simp⟩
    · simp only [List.mem_singleton] at hx
      subst hx
      exact ⟨joinHyphen ((p1 :: p2 :: rest).dropLast) ++ '-' :: p.1, by simp⟩

theorem AppendNumbers_tail (s : State) (lbl tl : GoStr) (hdot : '.' ∉ lbl) :
    ∀ r, AppendNumbers s (lbl ++ '.' :: tl) = some r → ∀ x ∈ r.1, ('.' :: tl) <:+ x := by
  intro r h x hx
  unfold AppendNumbers at h
  rw [splitFirst_append '.' lbl tl hdot] at h
  dsimp only at h
  split at h
  · injection h with h2
    rw [← h2] at hx
    cases hx
  · injection h with h2
    rw [← h2] at hx
    dsimp only at hx
    rcases (mem_foldl_insertMany
        (fun i => addSuffix (trimHyphens lbl) tl [digitChar i]) (List.range 10) [] x).mp hx
      with hx | ⟨i, _, hx⟩
    · cases hx
    · exact suffix_mem_addSuffix hx

theorem AddSuffixWord_tail (s : State) (lbl tl : GoStr) (hdot : '.' ∉ lbl) :
    ∀ r, AddSuffixWord s (lbl ++ '.' :: tl) = some r → ∀ x ∈ r.1, ('.' :: tl) <:+ x := by
  intro r h x hx
  unfold AddSuffixWord at h
  rw [splitFirst_append '.' lbl tl hdot] at h
  dsimp only at h
  split at h
  · injection h with h2
    rw [← h2] at hx
    cases hx
  · injection h with h2
    rw [← h2] at hx
    dsimp only at hx
    rcases mem_collectQual.mp hx with hx | ⟨p, _, _, hx⟩
    · cases hx
    · exact suffix_mem_addSuffix hx

theorem AddPrefixWord_tail (s : State) (lbl tl : GoStr)
    (htl : tl ≠ []) (hlast : tl.getLast? ≠ some '-') :
    ∀ r, AddPrefixWord s (lbl ++ '.' :: tl) = some r → ∀ x ∈ r.1, ('.' :: tl) <:+ x := by
  intro r h x hx
  unfold AddPrefixWord at h
  dsimp only at h
  rw [trimHyphens_append_dot lbl tl htl hlast, if_neg (by simp)] at h
  injection h with h2
  rw [← h2] at hx
  dsimp only at hx
  rcases mem_collectQual.mp hx with hx | ⟨p, _, _, hx⟩
  · cases hx
  · have hsuf : ('.' :: tl) <:+ lbl.dropWhile (· = '-') ++ '.' :: tl :=
      List.suffix_append _ _
    rcases List.mem_cons.mp hx with rfl | hx
    · exact suffix_append_left p.1 hsuf
    · rcases List.mem_cons.mp hx with rfl | hx
      · exact suffix_append_left p.1 (suffix_append_left ['-'] hsuf)
      · cases hx

theorem FlipNumbers_tail (s : State) (lbl tl : GoStr) (hdot : '.' ∉ lbl) :
    ∀ r, FlipNumbers s (lbl ++ '.' :: tl) = some r → ∀ x ∈ r.1, ('.' :: tl) <:+ x := by
  intro r h x hx
  unfold FlipNumbers at h
  rw [part0_append lbl tl hdot] at h
  cases hfi : indexFunc Char.isDigit lbl with
  | none =>
    rw [hfi] at h
    injection h with h2
    rw [← h2] at hx
    cases hx
  | some fi =>
    rw [hfi] at h
    dsimp only at h
    injection h with h2
    rw [← h2] at hx
    have hflt : fi < lbl.length := indexFunc_lt_length hfi
    have htake : (lbl ++ '.' :: tl).take fi = lbl.take fi :=
      List.take_append_of_le_length (by omega)
    have hdrop : (lbl ++ '.' :: tl).drop (fi + 1) = lbl.drop (fi + 1) ++ '.' :: tl :=
      List.drop_append_of_le_length (by omega)
    have hsubd : ∀ c ∈ lbl.take fi ++ lbl.drop (fi + 1), c ∈ lbl := by
      intro c hc
      rcases List.mem_append.mp hc with hc | hc
      · exact List.take_subset fi lbl hc
      · exact List.drop_subset (fi + 1) lbl hc
    rcases mem_insertMany.mp hx with hx | hx
    · rcases (mem_foldl_insertMany _ _ _ _).mp hx with hx | ⟨i, hi, hx⟩
      · cases hx
      · rw [htake, hdrop] at hx
        have hshape : lbl.take fi ++ digitChar i :: (lbl.drop (fi + 1) ++ '.' :: tl) =
            (lbl.take fi ++ digitChar i :: lbl.drop (fi + 1)) ++ '.' :: tl := by simp
        rw [hshape] at hx
        have hd' : '.' ∉ lbl.take fi ++ digitChar i :: lbl.drop (fi + 1) := by
          intro hcm
          rcases List.mem_append.mp hcm with hc | hc
          · exact hdot (List.take_subset fi lbl hc)
          · rcases List.mem_cons.mp hc with hc | hc
            · exact digitChar_ne_dot (List.mem_range.mp hi) hc.symm
            · exact hdot (List.drop_subset (fi + 1) lbl hc)
        exact secondNumberFlip_tail _ tl hd' _ x hx
    · rw [htake, hdrop] at hx
      have hshape : lbl.take fi ++ (lbl.drop (fi + 1) ++ '.' :: tl) =
          (lbl.take fi ++ lbl.drop (fi + 1)) ++ '.' :: tl := by simp
      rw [hshape] at hx
      have hd' : '.' ∉ lbl.take fi ++ lbl.drop (fi + 1) := fun hc => hdot (hsubd '.' hc)
      exact secondNumberFlip_tail _ tl hd' _ x hx

theorem FuzzyLabelSearches_tail (s : State) (lbl tl : GoStr) (hdot : '.' ∉ lbl) :
    ∀ r, FuzzyLabelSearches s (lbl ++ '.' :: tl) = some r → ∀ x ∈ r.1, ('.' :: tl) <:+ x := by
  intro r h x hx
  unfold FuzzyLabelSearches at h
  rw [splitFirst_append '.' lbl tl hdot] at h
  dsimp only at h
  injection h with h2
  rw [← h2] at hx
  dsimp only at hx
  rcases (mem_fuzzFold tl _ _ x).mp hx with h3 | ⟨alt, _, _, h4⟩
  · cases h3
  · subst h4
    exact ⟨trimHyphens alt, rfl⟩

/-- C7 counterexample: AddPrefixWord trims hyphens from the whole name, so a
tail ending in '-' is not preserved verbatim: for "a.b-" (label "a", tail
"b-") its outputs end in ".b", not ".b-". -/
theorem AddPrefixWord_tail_counterexample :
    (AddPrefixWord exState "a.b-".data).map (fun r => r.1) =
      some ["xa.b".data, "x-a.b".data] ∧
    ¬ ('.' :: "b-".data) <:+ "xa.b".data ∧
    ¬ ('.' :: "b-".data) <:+ "x-a.b".data := by decide

/-- C7 amended: for every state and every input label.tail with a dot-free
label and a nonempty tail, FlipWords, FlipNumbers, AppendNumbers,
AddSuffixWord and FuzzyLabelSearches return only names ending in "." ++
tail with the tail preserved verbatim; AddPrefixWord does too provided the
tail does not end in '-' (it trims hyphens from the whole name). -/
theorem tail_preserved_amended (s : State) (lbl tl : GoStr)
    (hdot : '.' ∉ lbl) (htl : tl ≠ []) :
    (∀ r, FlipWords s (lbl ++ '.' :: tl) = some r → ∀ x ∈ r.1, ('.' :: tl) <:+ x) ∧
    (∀ r, FlipNumbers s (lbl ++ '.' :: tl) = some r → ∀ x ∈ r.1, ('.' :: tl) <:+ x) ∧
    (∀ r, AppendNumbers s (lbl ++ '.' :: tl) = some r → ∀ x ∈ r.1, ('.' :: tl) <:+ x) ∧
    (∀ r, AddSuffixWord s (lbl ++ '.' :: tl) = some r → ∀ x ∈ r.1, ('.' :: tl) <:+ x) ∧
    (∀ r, FuzzyLabelSearches s (lbl ++ '.' :: tl) = some r → ∀ x ∈ r.1, ('.' :: tl) <:+ x) ∧
    (tl.getLast? ≠ some '-' →
      ∀ r, AddPrefixWord s (lbl ++ '.' :: tl) = some r → ∀ x ∈ r.1, ('.' :: tl) <:+ x) :=
  ⟨FlipWords_tail s lbl tl hdot, FlipNumbers_tail s lbl tl hdot,
   AppendNumbers_tail s lbl tl hdot, AddSuffixWord_tail s lbl tl hdot,
   FuzzyLabelSearches_tail s lbl tl hdot,
   fun hlast => AddPrefixWord_tail s lbl tl htl hlast⟩

/-- Witness for tail_preserved_amended: the AddSuffixWord conjunct at
"host.example.com" with the concrete example state. -/
theorem tail_preserved_amended_witness :
    ('.' :: "example.com".data) <:+ "hostx.example.com".data :=
  (tail_preserved_amended exState "host".data "example.com".data
      (by decide) (by decide)).2.2.2.1
    (["hostx.example.com".data, "host-x.example.com".data], exState) rfl
    "hostx.example.com".data (by decide)

end Alterations
